import Mathlib

/-!
Verification of `parsli` (`src/parsli/dataset_readers/references.py`).

The reader's substantive logic is embedded shallowly:

* `parseRefs` embeds line 118, the reference-cell parser
  `str(line.references_all).strip("；").replace("|", "").split("；")`,
  with Python's `strip`/`replace`/`split` spelled out on character lists.
* `labelTags` embeds the nested labeling loop of `_read` (lines 120-126);
  tokens are represented by their `.text` strings, which is all the loop
  inspects.
* `readerInit` embeds the `coding_scheme` validation in `__init__`
  (lines 97-100), with `Except.error` standing for `ConfigurationError`.
* `to_bioul` models the external allennlp IOB1-to-BIOUL converter invoked by
  `text_to_instance` (lines 140-141); that converter lives outside this
  repository, so it is modelled from the spec (§4.3) specialised to the
  untyped tags "O"/"B"/"I" this reader produces, with `none` standing for
  the `InvalidTagSequence` exception.
* `readInstances` embeds the per-record / per-sentence structure of `_read`:
  sentence splitting and tokenization are external, so a record is modelled
  as its `references_all` cell together with the token-text lists of its
  sentences.
-/

set_option autoImplicit false

namespace Parsli

/-- Python `str.strip("；")` for the single strip character `c`: remove every
leading and every trailing occurrence of `c` (part of line 118). -/
def pyStripChar (c : Char) (l : List Char) : List Char :=
  ((l.dropWhile (fun x => x == c)).reverse.dropWhile (fun x => x == c)).reverse

/-- Python `str.split(sep)` for a one-character separator `sep`: split on every
occurrence, keeping empty pieces, with `[[]]` on the empty string — exactly
Python's semantics for a nonempty separator (part of line 118). The inner
`match` result is never `[]`; that arm is unreachable. -/
def pySplit (sep : Char) : List Char → List (List Char)
  | [] => [[]]
  | c :: rest =>
    match pySplit sep rest with
    | [] => [[c]]
    | piece :: pieces =>
      if c = sep then [] :: piece :: pieces else (c :: piece) :: pieces

/-- Embeds line 118 applied to a non-missing cell:
`str(line.references_all).strip("；").replace("|", "").split("；")`.
Replacing the one-character string `"|"` by the empty string deletes every
`'|'` character, i.e. filters it out of the character list. -/
def parseRefs (cell : String) : List String :=
  (pySplit '；' ((pyStripChar '；' cell.data).filter (fun ch => ch != '|'))).map
    String.mk

/-- Modelled from the spec (§4.1) and Python semantics: pandas represents a
missing `references_all` cell as the float `nan`, and `str(float("nan"))` is
the lowercase string `"nan"` — this is the string line 118 starts from for a
missing cell. -/
def missingCellText : String := "nan"

/-- Embeds the span concatenation on line 123:
`"".join(token.text for token in tokens[i:j])`, the separator-free
concatenation of the token texts with indices `i ≤ k < j`. -/
def concatSlice (tokens : List String) (i j : Nat) : String :=
  String.join ((tokens.drop i).take (j - i))

/-- Embeds lines 124-125: `tags[i] = "B"` followed by
`tags[i + 1:j] = ["I"] * (j - i - 1)`. The slice assignment writes `"I"` into
positions `i+1 … j-1` one by one; at every call site `j ≤ len(tags)`, so it is
length preserving. -/
def applySpan (tags : List String) (i j : Nat) : List String :=
  (List.range (j - i - 1)).foldl (fun ts k => ts.set (i + 1 + k) "I")
    (tags.set i "B")

/-- Embeds the labeling loop of `_read` (lines 120-126): one `"O"` tag per
token, then for `i` in `range(len(tokens))` and `j` in
`range(i + 1, len(tokens) + 1)`, if the concatenation of tokens `i ≤ k < j`
is in `refs`, stamp that span. -/
def labelTags (tokens refs : List String) : List String :=
  (List.range tokens.length).foldl
    (fun tags i =>
      (List.range' (i + 1) (tokens.length - i)).foldl
        (fun tags j =>
          if concatSlice tokens i j ∈ refs then applySpan tags i j else tags)
        tags)
    (tokens.map fun _ => "O")

/-- Transcribes the spec's wording of the span concatenation: "the
separator-free concatenation of token texts from i to j (exclusive)". -/
def specConcat (tokens : List String) (i j : Nat) : String :=
  String.join ((tokens.take j).drop i)

/-- Transcribes the spec's wording of one span update: "set tag i to B and
tags i+1..j-1 to I", as a positionwise description of the new tag list. -/
def specApplySpan (tags : List String) (i j : Nat) : List String :=
  tags.enum.map fun p =>
    if p.1 = i then "B" else if i < p.1 ∧ p.1 < j then "I" else p.2

/-- Transcribes the spec's reference algorithm (C1): initialize one "O" tag
per token; for every start index `i` in ascending order and every end index
`j > i` in ascending order, if the concatenation of tokens `i … j-1` is a
member of the reference list, overwrite with that span, last write winning. -/
def specLabelTags (tokens refs : List String) : List String :=
  (List.range tokens.length).foldl
    (fun tags i =>
      ((List.range (tokens.length + 1)).filter (fun j => decide (i < j))).foldl
        (fun tags j =>
          if specConcat tokens i j ∈ refs then specApplySpan tags i j else tags)
        tags)
    (List.replicate tokens.length "O")

/-- Embeds the `coding_scheme` validation in `__init__` (lines 97-100):
`if coding_scheme not in ("IOB1", "BIOUL"): raise ConfigurationError(...)`.
The argument is `Optional[str]`, so `none` models Python's `None`;
`Except.error` models the raised `ConfigurationError`. The constructor
touches no data file: `readerInit` takes no input besides the scheme. -/
def readerInit (coding_scheme : Option String) :
    Except String (Option String) :=
  if ¬ (coding_scheme = some "IOB1" ∨ coding_scheme = some "BIOUL") then
    Except.error "unknown coding_scheme"
  else
    Except.ok coding_scheme

/-- Modelled from the spec (§4.3): allennlp `to_bioul`'s `process_stack`,
specialised to the untyped tags used here. A pending span of one tag flushes
to `["U"]`; a pending span of `n ≥ 2` tags flushes to `"B"`, `n - 2` times
`"I"`, then `"L"`. -/
def flushStack (stack : List String) : List String :=
  match stack with
  | [] => []
  | [_] => ["U"]
  | _ => "B" :: List.replicate (stack.length - 2) "I" ++ ["L"]

/-- Modelled from the spec (§4.3): the main loop of allennlp `to_bioul` with
`encoding="IOB1"`, specialised to untyped tags. An `"O"` flushes the pending
span; an `"I"` extends it (IOB1 allows `"I"` to open a span); a `"B"` flushes
the pending span and opens a new one; any other tag raises
`InvalidTagSequence`, modelled as `none`. -/
def toBioulGo (stack : List String) : List String → Option (List String)
  | [] => some (flushStack stack)
  | t :: rest =>
    if t = "O" then (toBioulGo [] rest).map fun out => flushStack stack ++ "O" :: out
    else if t = "I" then toBioulGo (stack ++ ["I"]) rest
    else if t = "B" then (toBioulGo ["B"] rest).map fun out => flushStack stack ++ out
    else none

/-- Modelled from the spec (§4.3 and §8): the IOB1 → BIOUL recoding applied by
`text_to_instance` (lines 140-141) when `coding_scheme == "BIOUL"`. -/
def to_bioul (tags : List String) : Option (List String) :=
  toBioulGo [] tags

/-- Modelled from the spec (§8): the inverse recoding BIOUL → IOB1 used to
state the round-trip property. `p` records whether the previous token lies
inside a span; in IOB1 a span opens with `"B"` exactly when it immediately
follows another span, and with `"I"` otherwise. -/
def fromBioulGo (p : Bool) : List String → List String
  | [] => []
  | t :: rest =>
    if t = "O" then "O" :: fromBioulGo false rest
    else if t = "U" ∨ t = "B" then
      (if p then "B" else "I") :: fromBioulGo true rest
    else "I" :: fromBioulGo true rest

/-- Modelled from the spec (§8): BIOUL → IOB1 recoding of a whole sequence. -/
def from_bioul (tags : List String) : List String :=
  fromBioulGo false tags

/-- Checker for strict IOB1 well-formedness ("no overlapping-span artifacts"):
every tag is `"O"`, `"B"` or `"I"`, and `"B"` occurs only immediately after a
token that is part of a span. `p` records whether the previous token is part
of a span. -/
def wfFrom (p : Bool) : List String → Bool
  | [] => true
  | t :: rest =>
    if t = "O" then wfFrom false rest
    else if t = "I" then wfFrom true rest
    else if t = "B" then p && wfFrom true rest
    else false

/-- Strict IOB1 well-formedness of a whole tag sequence. -/
def wellFormedIOB1 (tags : List String) : Bool :=
  wfFrom false tags

/-- All spans the loop of `_read` stamps, in its iteration order: `i`
ascending, then `j` ascending. -/
def spanList (tokens refs : List String) : List (Nat × Nat) :=
  (List.range tokens.length).flatMap fun i =>
    (List.range' (i + 1) (tokens.length - i)).filterMap fun j =>
      if concatSlice tokens i j ∈ refs then some (i, j) else none

/-- Decides whether `[i, j)` is a span the loop matches: nonempty, inside the
token list, and with concatenation in the reference list. -/
def matchedSpan (tokens refs : List String) (i j : Nat) : Bool :=
  decide (i < j) && decide (j ≤ tokens.length) &&
    decide (concatSlice tokens i j ∈ refs)

/-- Decides that every two matched spans are equal or disjoint. -/
def noOverlap (tokens refs : List String) : Bool :=
  (List.range (tokens.length + 1)).all fun i =>
    (List.range (tokens.length + 1)).all fun j =>
      (List.range (tokens.length + 1)).all fun a =>
        (List.range (tokens.length + 1)).all fun b =>
          !(matchedSpan tokens refs i j && matchedSpan tokens refs a b) ||
            decide ((i = a ∧ j = b) ∨ j ≤ a ∨ b ≤ i)

/-- Decides that `[i, j)` is a maximal span of a `"B"` tag followed by zero or
more consecutive `"I"` tags: position `i` holds `"B"`, positions
`i+1 … j-1` hold `"I"`, and position `j` (if any) does not hold `"I"`. -/
def isMaxBISpan (tags : List String) (i j : Nat) : Bool :=
  decide (i < j) && decide (j ≤ tags.length) && (tags.getD i "O" == "B") &&
    ((List.range' (i + 1) (j - i - 1)).all fun k => tags.getD k "O" == "I") &&
    (tags.getD j "X" != "I")

/-- Last element of `L` whose half-open interval covers position `k` — the
span whose write to position `k` survives last-write-wins. -/
def lastCover (k : Nat) : List (Nat × Nat) → Option (Nat × Nat)
  | [] => none
  | p :: L =>
    match lastCover k L with
    | some q => some q
    | none => if p.1 ≤ k ∧ k < p.2 then some p else none

/-- Embeds the record/sentence structure of `_read` (lines 117-127): the
reference list is parsed once per record, and each sentence of the record
contributes one `(tokens, tags)` instance, appended to the output stream in
order. -/
def readInstances (records : List (String × List (List String))) :
    List (List String × List String) :=
  records.foldl
    (fun acc r =>
      (r.2).foldl
        (fun acc2 tokens =>
          acc2 ++ [(tokens, labelTags tokens (parseRefs r.1))])
        acc)
    []

example : parseRefs "A；B；C" = ["A", "B", "C"] := by decide
example : labelTags ["a", "b", "c"] ["abc", "bc"] = ["B", "B", "I"] := by decide
example : labelTags ["a", "b"] ["ab"] = ["B", "I"] := by decide
example : to_bioul ["B", "B", "I"] = some ["U", "B", "L"] := by decide
example : from_bioul ["U", "B", "L"] = ["I", "B", "I"] := by decide

/-! ### Reference-list parser (claims C5, C6) -/

theorem pyStripChar_append_sep (c : Char) (l : List Char) :
    pyStripChar c (l ++ [c]) = pyStripChar c l := by
  unfold pyStripChar
  rw [List.dropWhile_append]
  by_cases h : (List.dropWhile (fun x => x == c) l).isEmpty
  · have hnil : List.dropWhile (fun x => x == c) l = [] := by
      simpa using h
    rw [hnil]
    simp [List.dropWhile]
  · simp only [h, if_false, Bool.false_eq_true]
    rw [List.reverse_append]
    simp [List.dropWhile]

theorem pySplit_cons (sep c : Char) (rest piece : List Char)
    (pieces : List (List Char)) (h : pySplit sep rest = piece :: pieces) :
    pySplit sep (c :: rest) =
      if c = sep then [] :: piece :: pieces else (c :: piece) :: pieces := by
  unfold pySplit
  rw [h]

theorem pySplit_ne_nil (sep : Char) (l : List Char) : pySplit sep l ≠ [] := by
  induction l with
  | nil => simp [pySplit]
  | cons c rest ih =>
    rcases hps : pySplit sep rest with _ | ⟨piece, pieces⟩
    · exact absurd hps ih
    · rw [pySplit_cons sep c rest piece pieces hps]
      split <;> simp

theorem mem_of_mem_pySplit (sep : Char) (l : List Char) :
    ∀ r ∈ pySplit sep l, ∀ ch ∈ r, ch ∈ l := by
  induction l with
  | nil =>
    intro r hr ch hch
    simp [pySplit] at hr
    subst hr
    simp at hch
  | cons c rest ih =>
    intro r hr ch hch
    rcases hps : pySplit sep rest with _ | ⟨piece, pieces⟩
    · exact absurd hps (pySplit_ne_nil sep rest)
    · rw [pySplit_cons sep c rest piece pieces hps] at hr
      split at hr
      · rcases List.mem_cons.mp hr with h1 | h1
        · subst h1; simp at hch
        · exact List.mem_cons_of_mem c (ih r (hps ▸ h1) ch hch)
      · rcases List.mem_cons.mp hr with h1 | h1
        · subst h1
          rcases List.mem_cons.mp hch with h2 | h2
          · exact h2 ▸ List.mem_cons_self c rest
          · exact List.mem_cons_of_mem c
              (ih piece (hps ▸ List.mem_cons_self piece pieces) ch h2)
        · exact List.mem_cons_of_mem c
            (ih r (hps ▸ List.mem_cons_of_mem piece h1) ch hch)

/-- C5: the reference-list parser behaves as specified: `"A；B；C"` parses to
exactly `["A", "B", "C"]`; appending a trailing `"；"` separator to any cell
does not change the result (the separator is stripped before splitting); and
no parsed candidate contains the cross-trial marker `'|'`, since every
occurrence is removed before splitting. -/
theorem referenceParser_contract :
    parseRefs "A；B；C" = ["A", "B", "C"] ∧
    (∀ s : String, parseRefs (s ++ "；") = parseRefs s) ∧
    (∀ s : String, ∀ r ∈ parseRefs s, ∀ ch ∈ r.data, ch ≠ '|') := by
  refine ⟨by decide, fun s => ?_, fun s r hr ch hch => ?_⟩
  · unfold parseRefs
    have hdata : (s ++ "；").data = s.data ++ ['；'] := by
      rw [String.data_append]
    rw [hdata, pyStripChar_append_sep]
  · unfold parseRefs at hr
    rcases List.mem_map.mp hr with ⟨piece, hpiece, hmk⟩
    have hch2 : ch ∈ piece := by
      have : r.data = piece := by rw [← hmk]
      rwa [this] at hch
    have hmem := mem_of_mem_pySplit _ _ _ hpiece ch hch2
    have hne := (List.mem_filter.mp hmem).2
    simpa using hne

/-- Witness for C5: instances of the trailing-separator and marker-removal
parts at concrete inputs. -/
theorem referenceParser_contract_witness :
    parseRefs ("x" ++ "；") = parseRefs "x" ∧ 'a' ≠ '|' :=
  ⟨referenceParser_contract.2.1 "x",
    referenceParser_contract.2.2 "a|；b" "a" (by decide) 'a' (by decide)⟩

/-- C6 counterexample: the stringified missing value is Python's lowercase
`"nan"`, so the parser yields `["nan"]`, not the claimed `["NaN"]`. -/
theorem missingCell_not_NaN_placeholder :
    parseRefs missingCellText = ["nan"] ∧
    parseRefs missingCellText ≠ ["NaN"] := by decide

/-- C6 amended: for a missing `references_all` value the parser yields the
single-element list `["nan"]` (the lowercase stringified missing value),
rather than an empty list. -/
theorem missingCell_yields_nan_singleton :
    parseRefs missingCellText = ["nan"] ∧ parseRefs missingCellText ≠ [] := by
  decide

/-! ### Constructor validation (claim C4) -/

/-- C4: construction fails with a configuration error exactly when the
coding scheme is outside {"IOB1", "BIOUL"} — including `None` — and succeeds
for either recognized value. `readerInit` takes no data input, so the check
happens before any file is opened. -/
theorem readerInit_configError_iff :
    (∀ c : Option String,
      (∃ msg, readerInit c = Except.error msg) ↔
        ¬ (c = some "IOB1" ∨ c = some "BIOUL")) ∧
    (∃ msg, readerInit none = Except.error msg) ∧
    readerInit (some "IOB1") = Except.ok (some "IOB1") ∧
    readerInit (some "BIOUL") = Except.ok (some "BIOUL") := by
  refine ⟨fun c => ?_, ⟨"unknown coding_scheme", rfl⟩, rfl, rfl⟩
  by_cases h : c = some "IOB1" ∨ c = some "BIOUL"
  · simp [readerInit, h]
  · simp [readerInit, h]

/-! ### End-to-end example (claim C7) -/

/-- C7: for a record whose cell parses to the single reference `《民法典》` and
the tokenization of the example sentence, the loop tags the three tokens
`《`, `民法典`, `》` as B, I, I and every other token as O. -/
theorem endToEnd_example_tags :
    parseRefs "《民法典》" = ["《民法典》"] ∧
    labelTags ["本案", "依据", "《", "民法典", "》", "第", "一", "条", "判决", "。"]
        ["《民法典》"] =
      ["O", "O", "B", "I", "I", "O", "O", "O", "O", "O"] := by
  decide

/-! ### The labeling loop refines the spec algorithm (claim C1) -/

theorem getD_set (l : List String) (n k : Nat) (a d : String)
    (hk : k < l.length) :
    (l.set n a).getD k d = if n = k then a else l.getD k d := by
  rw [List.getD_eq_getElem _ _ (by simpa using hk),
    List.getD_eq_getElem _ _ hk]
  exact List.getElem_set _

theorem foldl_set_length (i : Nat) (L : List Nat) (acc : List String) :
    (L.foldl (fun ts m => ts.set (i + 1 + m) "I") acc).length = acc.length := by
  induction L generalizing acc with
  | nil => rfl
  | cons m0 L ih => simp [List.foldl_cons, ih, List.length_set]

theorem applySpan_length (tags : List String) (i j : Nat) :
    (applySpan tags i j).length = tags.length := by
  unfold applySpan
  rw [foldl_set_length]
  exact tags.length_set i "B"

theorem foldl_set_getD (i k : Nat) (L : List Nat) (acc : List String)
    (hk : k < acc.length) :
    (L.foldl (fun ts m => ts.set (i + 1 + m) "I") acc).getD k "O" =
      if ∃ m ∈ L, i + 1 + m = k then "I" else acc.getD k "O" := by
  induction L generalizing acc with
  | nil => simp
  | cons m0 L ih =>
    rw [List.foldl_cons, ih (acc.set (i + 1 + m0) "I") (by simpa using hk)]
    by_cases hc : ∃ m ∈ L, i + 1 + m = k
    · have hall : ∃ m ∈ m0 :: L, i + 1 + m = k := by
        rcases hc with ⟨m, hm, hmk⟩
        exact ⟨m, List.mem_cons_of_mem m0 hm, hmk⟩
      rw [if_pos hc, if_pos hall]
    · rw [if_neg hc, getD_set _ _ _ _ _ hk]
      by_cases h0 : i + 1 + m0 = k
      · have hall : ∃ m ∈ m0 :: L, i + 1 + m = k :=
          ⟨m0, List.mem_cons_self m0 L, h0⟩
        rw [if_pos h0, if_pos hall]
      · have hnone : ¬ ∃ m ∈ m0 :: L, i + 1 + m = k := by
          rintro ⟨m, hm, hmk⟩
          rcases List.mem_cons.mp hm with rfl | hm2
          · exact h0 hmk
          · exact hc ⟨m, hm2, hmk⟩
        rw [if_neg h0, if_neg hnone]

theorem specApplySpan_length (tags : List String) (i j : Nat) :
    (specApplySpan tags i j).length = tags.length := by
  simp [specApplySpan, List.enum_length]

theorem specApplySpan_getD (tags : List String) (i j k : Nat)
    (hk : k < tags.length) :
    (specApplySpan tags i j).getD k "O" =
      if k = i then "B" else
        if i < k ∧ k < j then "I" else tags.getD k "O" := by
  unfold specApplySpan
  have hk2 : k < (tags.enum.map fun p =>
      if p.1 = i then "B" else if i < p.1 ∧ p.1 < j then "I" else p.2).length := by
    simpa [List.enum_length] using hk
  rw [List.getD_eq_getElem _ _ hk2, List.getElem_map, List.getElem_enum,
    List.getD_eq_getElem _ _ hk]

theorem applySpan_getD (tags : List String) (i j k : Nat)
    (hk : k < tags.length) :
    (applySpan tags i j).getD k "O" =
      if k = i then "B" else
        if i < k ∧ k < j then "I" else tags.getD k "O" := by
  unfold applySpan
  rw [foldl_set_getD i k _ _ (by simpa using hk)]
  have hiff : (∃ m ∈ List.range (j - i - 1), i + 1 + m = k) ↔ i < k ∧ k < j := by
    constructor
    · rintro ⟨m, hm, rfl⟩
      rw [List.mem_range] at hm
      omega
    · rintro ⟨h1, h2⟩
      exact ⟨k - i - 1, by rw [List.mem_range]; omega, by omega⟩
  by_cases hI : i < k ∧ k < j
  · rw [if_pos (hiff.mpr hI), if_neg (by omega : ¬ k = i), if_pos hI]
  · rw [if_neg (fun h => hI (hiff.mp h)), getD_set _ _ _ _ _ hk]
    by_cases h0 : k = i
    · rw [if_pos (by omega : i = k), if_pos h0]
    · rw [if_neg (by omega : ¬ i = k), if_neg h0, if_neg hI]

theorem applySpan_eq_specApplySpan (tags : List String) (i j : Nat) :
    applySpan tags i j = specApplySpan tags i j := by
  apply List.ext_getElem
  · rw [applySpan_length, specApplySpan_length]
  · intro k h1 h2
    have hk : k < tags.length := by rwa [applySpan_length] at h1
    rw [← List.getD_eq_getElem _ "O" h1, ← List.getD_eq_getElem _ "O" h2,
      applySpan_getD _ _ _ _ hk, specApplySpan_getD _ _ _ _ hk]

theorem concatSlice_eq_specConcat (tokens : List String) (i j : Nat) :
    concatSlice tokens i j = specConcat tokens i j := by
  unfold concatSlice specConcat
  rw [List.take_drop]
  by_cases h : i ≤ j
  · rw [(by omega : i + (j - i) = j)]
  · rw [(by omega : i + (j - i) = i)]
    rw [List.drop_eq_nil_of_le (by rw [List.length_take]; omega),
      List.drop_eq_nil_of_le (by rw [List.length_take]; omega)]

theorem filter_range_eq_range' (n i : Nat) :
    (List.range (n + 1)).filter (fun j => decide (i < j)) =
      List.range' (i + 1) (n - i) := by
  induction n with
  | zero =>
    have : (0 : Nat) - i = 0 := by omega
    rw [this]
    simp [List.range_succ]
  | succ n ih =>
    rw [List.range_succ, List.filter_append, ih]
    by_cases h : i < n + 1
    · have h1 : List.filter (fun j => decide (i < j)) [n + 1] = [n + 1] := by
        simp [h]
      rw [h1, (by omega : n + 1 - i = (n - i) + 1), List.range'_concat,
        (by omega : i + 1 + 1 * (n - i) = n + 1)]
    · have h1 : List.filter (fun j => decide (i < j)) [n + 1] = [] := by
        simp [h]
      rw [h1, List.append_nil, (by omega : n + 1 - i = n - i)]

/-- C1: the tag sequence the reader's loop produces equals the spec's
reference algorithm — initialize one "O" per token, iterate start indices in
ascending order, end indices in ascending order, stamp every matching span,
last write winning. -/
theorem labelTags_eq_specLabelTags :
    ∀ tokens refs : List String,
      labelTags tokens refs = specLabelTags tokens refs := by
  intro tokens refs
  unfold labelTags specLabelTags
  rw [List.map_const']
  simp only [filter_range_eq_range', concatSlice_eq_specConcat,
    applySpan_eq_specApplySpan]

/-! ### Tag-sequence length invariant (claim C2) -/

theorem foldl_length_inv {β : Type} (f : List String → β → List String)
    (hf : ∀ a x, (f a x).length = a.length) :
    ∀ (L : List β) (a : List String), (L.foldl f a).length = a.length := by
  intro L
  induction L with
  | nil => intro a; rfl
  | cons x L ih => intro a; rw [List.foldl_cons, ih, hf]

theorem labelTags_length (tokens refs : List String) :
    (labelTags tokens refs).length = tokens.length := by
  unfold labelTags
  rw [foldl_length_inv _ ?_ _ _]
  · exact List.length_map tokens _
  · intro a i
    apply foldl_length_inv
    intro a2 j
    split
    · exact applySpan_length a2 i j
    · rfl

theorem foldl_mem_or {β : Type} (P : String → Prop)
    (f : List String → β → List String)
    (hf : ∀ a x t, t ∈ f a x → t ∈ a ∨ P t) :
    ∀ (L : List β) (a : List String) (t : String),
      t ∈ L.foldl f a → t ∈ a ∨ P t := by
  intro L
  induction L with
  | nil => intro a t ht; exact Or.inl ht
  | cons x L ih =>
    intro a t ht
    rcases ih (f a x) t ht with h | h
    · exact hf a x t h
    · exact Or.inr h

theorem mem_applySpan (tags : List String) (i j : Nat) (t : String)
    (ht : t ∈ applySpan tags i j) : t ∈ tags ∨ t = "B" ∨ t = "I" := by
  unfold applySpan at ht
  rcases foldl_mem_or (fun s => s = "I") _
      (fun a m s hs => List.mem_or_eq_of_mem_set hs) _ _ _ ht with h | h
  · rcases List.mem_or_eq_of_mem_set h with h2 | h2
    · exact Or.inl h2
    · exact Or.inr (Or.inl h2)
  · exact Or.inr (Or.inr h)

theorem labelTags_tags_mem (tokens refs : List String) :
    ∀ t ∈ labelTags tokens refs, t = "O" ∨ t = "B" ∨ t = "I" := by
  intro t ht
  unfold labelTags at ht
  have h := foldl_mem_or (fun s => s = "B" ∨ s = "I") _
    (fun a i s hs =>
      foldl_mem_or (fun s2 => s2 = "B" ∨ s2 = "I") _
        (fun a2 j s2 hs2 => by
          split at hs2
          · exact mem_applySpan a2 i j s2 hs2
          · exact Or.inl hs2)
        _ _ _ hs)
    _ _ _ ht
  rcases h with h2 | h2
  · rcases List.mem_map.mp h2 with ⟨_, _, rfl⟩
    exact Or.inl rfl
  · exact Or.inr h2

theorem flushStack_cons_cons (a b : String) (t : List String) :
    flushStack (a :: b :: t) =
      "B" :: List.replicate ((a :: b :: t).length - 2) "I" ++ ["L"] := rfl

theorem flushStack_length (stack : List String) :
    (flushStack stack).length = stack.length := by
  rcases stack with _ | ⟨a, _ | ⟨b, t⟩⟩
  · rfl
  · rfl
  · rw [flushStack_cons_cons]
    simp

theorem toBioulGo_length (tags : List String) : ∀ stack out : List String,
    toBioulGo stack tags = some out →
      out.length = stack.length + tags.length := by
  induction tags with
  | nil =>
    intro stack out h
    simp only [toBioulGo, Option.some.injEq] at h
    rw [← h, flushStack_length]
    simp
  | cons t rest ih =>
    intro stack out h
    simp only [toBioulGo] at h
    by_cases hO : t = "O"
    · rw [if_pos hO] at h
      rcases Option.map_eq_some'.mp h with ⟨out2, h2, rfl⟩
      have := ih [] out2 h2
      simp [flushStack_length, this]
    · by_cases hI : t = "I"
      · rw [if_neg hO, if_pos hI] at h
        have := ih (stack ++ ["I"]) out h
        simp at this
        simp [this]
        omega
      · by_cases hB : t = "B"
        · rw [if_neg hO, if_neg hI, if_pos hB] at h
          rcases Option.map_eq_some'.mp h with ⟨out2, h2, rfl⟩
          have := ih ["B"] out2 h2
          simp at this
          simp [flushStack_length, this]
          omega
        · rw [if_neg hO, if_neg hI, if_neg hB] at h
          exact absurd h (by simp)

theorem toBioulGo_isSome (tags : List String) : ∀ stack : List String,
    (∀ t ∈ tags, t = "O" ∨ t = "B" ∨ t = "I") →
    (toBioulGo stack tags).isSome = true := by
  induction tags with
  | nil => intro stack _; simp [toBioulGo]
  | cons t rest ih =>
    intro stack hall
    have hrest : ∀ x ∈ rest, x = "O" ∨ x = "B" ∨ x = "I" := fun x hx =>
      hall x (List.mem_cons_of_mem t hx)
    simp only [toBioulGo]
    rcases hall t (List.mem_cons_self t rest) with rfl | rfl | rfl
    · rw [if_pos rfl]
      simpa using ih [] hrest
    · rw [if_neg (by decide), if_neg (by decide), if_pos rfl]
      simpa using ih ["B"] hrest
    · rw [if_neg (by decide), if_pos rfl]
      exact ih (stack ++ ["I"]) hrest

/-- C2: for every tokenized sentence the produced tag sequence has exactly one
tag per token, and this is preserved by the BIOUL recoding: `to_bioul`
succeeds on the loop's output and returns a sequence of the same length. -/
theorem tag_length_eq_token_length (tokens refs : List String) :
    (labelTags tokens refs).length = tokens.length ∧
    ∃ out, to_bioul (labelTags tokens refs) = some out ∧
      out.length = tokens.length := by
  refine ⟨labelTags_length tokens refs, ?_⟩
  have hsome :=
    toBioulGo_isSome (labelTags tokens refs) [] (labelTags_tags_mem tokens refs)
  rcases Option.isSome_iff_exists.mp hsome with ⟨out, hout⟩
  refine ⟨out, hout, ?_⟩
  have := toBioulGo_length (labelTags tokens refs) [] out hout
  simpa [labelTags_length] using this

/-! ### Last-write-wins characterization of the final tags (claims C3, C8) -/

theorem mem_spanList (tokens refs : List String) (p : Nat × Nat) :
    p ∈ spanList tokens refs ↔
      p.1 < p.2 ∧ p.2 ≤ tokens.length ∧ concatSlice tokens p.1 p.2 ∈ refs := by
  rcases p with ⟨i, j⟩
  unfold spanList
  simp only [List.mem_flatMap, List.mem_filterMap, List.mem_range,
    List.mem_range'_1]
  constructor
  · rintro ⟨a, ha, j2, ⟨h1, h2⟩, hif⟩
    split at hif
    · rcases Option.some.inj hif with h3
      obtain ⟨rfl, rfl⟩ : a = i ∧ j2 = j := Prod.mk.inj h3
      refine ⟨by omega, by omega, by assumption⟩
    · exact absurd hif (by simp)
  · rintro ⟨hij, hjn, hmem⟩
    exact ⟨i, by omega, j, ⟨by omega, by omega⟩, by rw [if_pos hmem]⟩

theorem inner_fold_filterMap (tokens refs : List String) (i : Nat) :
    ∀ (Ljs : List Nat) (acc : List String),
      Ljs.foldl
        (fun tags j =>
          if concatSlice tokens i j ∈ refs then applySpan tags i j else tags)
        acc =
      (Ljs.filterMap fun j =>
          if concatSlice tokens i j ∈ refs then some (i, j) else none).foldl
        (fun t p => applySpan t p.1 p.2) acc := by
  intro Ljs
  induction Ljs with
  | nil => intro acc; rfl
  | cons j Ljs ih =>
    intro acc
    rw [List.foldl_cons, List.filterMap_cons]
    by_cases hc : concatSlice tokens i j ∈ refs
    · rw [if_pos hc, if_pos hc, List.foldl_cons]
      exact ih _
    · rw [if_neg hc, if_neg hc]
      exact ih _

theorem outer_fold_flatMap (g : Nat → List (Nat × Nat)) :
    ∀ (L : List Nat) (acc : List String),
      L.foldl
        (fun tags i => (g i).foldl (fun t p => applySpan t p.1 p.2) tags)
        acc =
      (L.flatMap g).foldl (fun t p => applySpan t p.1 p.2) acc := by
  intro L
  induction L with
  | nil => intro acc; rfl
  | cons i L ih =>
    intro acc
    rw [List.foldl_cons, List.flatMap_cons, List.foldl_append]
    exact ih _

theorem labelTags_eq_foldl_spanList (tokens refs : List String) :
    labelTags tokens refs =
      (spanList tokens refs).foldl (fun t p => applySpan t p.1 p.2)
        (tokens.map fun _ => "O") := by
  unfold labelTags spanList
  rw [← outer_fold_flatMap]
  congr 1
  funext tags i
  exact inner_fold_filterMap tokens refs i _ tags

theorem lastCover_mem (k : Nat) : ∀ (L : List (Nat × Nat)) (q : Nat × Nat),
    lastCover k L = some q → q ∈ L ∧ q.1 ≤ k ∧ k < q.2 := by
  intro L
  induction L with
  | nil => intro q h; simp [lastCover] at h
  | cons p L ih =>
    intro q h
    cases hl : lastCover k L with
    | some q2 =>
      simp only [lastCover, hl] at h
      obtain rfl : q2 = q := Option.some.inj h
      obtain ⟨h1, h2, h3⟩ := ih q2 hl
      exact ⟨List.mem_cons_of_mem p h1, h2, h3⟩
    | none =>
      simp only [lastCover, hl] at h
      split at h
      · obtain rfl : p = q := Option.some.inj h
        rename_i hcov
        exact ⟨List.mem_cons_self p L, hcov.1, hcov.2⟩
      · exact absurd h (by simp)

theorem lastCover_isSome (k : Nat) : ∀ (L : List (Nat × Nat)) (q : Nat × Nat),
    q ∈ L → q.1 ≤ k → k < q.2 → (lastCover k L).isSome = true := by
  intro L
  induction L with
  | nil => intro q h; simp at h
  | cons p L ih =>
    intro q hq h1 h2
    cases hl : lastCover k L with
    | some q2 => simp only [lastCover, hl, Option.isSome_some]
    | none =>
      rcases List.mem_cons.mp hq with rfl | hq2
      · simp only [lastCover, hl]
        rw [if_pos ⟨h1, h2⟩]
        exact Option.isSome_some
      · have := ih q hq2 h1 h2
        rw [hl] at this
        exact absurd this (by simp)

theorem foldl_applySpan_getD (k : Nat) :
    ∀ (L : List (Nat × Nat)) (init : List String), k < init.length →
      (∀ p ∈ L, p.1 < p.2) →
      (L.foldl (fun t p => applySpan t p.1 p.2) init).getD k "O" =
        match lastCover k L with
        | some q => if q.1 = k then "B" else "I"
        | none => init.getD k "O" := by
  intro L
  induction L with
  | nil => intro init hk hL; rfl
  | cons p L ih =>
    intro init hk hL
    rw [List.foldl_cons]
    have hk2 : k < (applySpan init p.1 p.2).length := by
      rw [applySpan_length]; exact hk
    rw [ih (applySpan init p.1 p.2) hk2
      (fun q hq => hL q (List.mem_cons_of_mem p hq))]
    cases hl : lastCover k L with
    | some q => simp only [lastCover, hl]
    | none =>
      simp only [lastCover, hl]
      have hp := hL p (List.mem_cons_self p L)
      by_cases hcov : p.1 ≤ k ∧ k < p.2
      · rw [if_pos hcov]
        show (applySpan init p.1 p.2).getD k "O" =
          if p.1 = k then "B" else "I"
        rw [applySpan_getD init p.1 p.2 k hk]
        by_cases he : k = p.1
        · rw [if_pos he, if_pos (by omega : p.1 = k)]
        · rw [if_neg he, if_pos (by omega : p.1 < k ∧ k < p.2),
            if_neg (by omega : ¬ p.1 = k)]
      · rw [if_neg hcov]
        show (applySpan init p.1 p.2).getD k "O" = init.getD k "O"
        rw [applySpan_getD init p.1 p.2 k hk]
        rw [if_neg (by omega : ¬ k = p.1),
          if_neg (by omega : ¬ (p.1 < k ∧ k < p.2))]

theorem labelTags_getD_char (tokens refs : List String) (k : Nat)
    (hk : k < tokens.length) :
    (labelTags tokens refs).getD k "O" =
      match lastCover k (spanList tokens refs) with
      | some q => if q.1 = k then "B" else "I"
      | none => "O" := by
  rw [labelTags_eq_foldl_spanList]
  rw [foldl_applySpan_getD k _ _ (by simpa using hk)
    (fun p hp => ((mem_spanList tokens refs p).mp hp).1)]
  cases lastCover k (spanList tokens refs) with
  | some q => rfl
  | none =>
    show (tokens.map fun _ => "O").getD k "O" = "O"
    rw [List.map_const',
      List.getD_eq_getElem _ _ (by simpa using hk), List.getElem_replicate]

/-! ### Well-formedness of the produced tags (claim C8) -/

/-- C8: in every tag sequence the loop produces, an "I" never occurs at
position 0, and the tag immediately before any "I" is "B" or "I" — even in
the presence of overlapping matches, since "I" is only ever written to
interior positions of a matched span and no later write restores "O". -/
theorem no_leading_or_orphan_I (tokens refs : List String) (k : Nat)
    (hk : k < tokens.length)
    (hI : (labelTags tokens refs).getD k "O" = "I") :
    0 < k ∧ ((labelTags tokens refs).getD (k - 1) "O" = "B" ∨
      (labelTags tokens refs).getD (k - 1) "O" = "I") := by
  have hchar := labelTags_getD_char tokens refs k hk
  rw [hI] at hchar
  cases hl : lastCover k (spanList tokens refs) with
  | none =>
    rw [hl] at hchar
    have hbad : ("I" : String) = "O" := hchar
    exact absurd hbad (by decide)
  | some q =>
    rw [hl] at hchar
    have hchar2 : ("I" : String) = if q.1 = k then "B" else "I" := hchar
    obtain ⟨hqmem, hq1, hq2⟩ := lastCover_mem k (spanList tokens refs) q hl
    have hne : q.1 ≠ k := by
      intro he
      rw [if_pos he] at hchar2
      exact absurd hchar2 (by decide)
    have hk0 : 0 < k := by omega
    refine ⟨hk0, ?_⟩
    have hsome := lastCover_isSome (k - 1) (spanList tokens refs) q hqmem
      (by omega) (by omega)
    rcases Option.isSome_iff_exists.mp hsome with ⟨q2, hq2l⟩
    have hcharPrev := labelTags_getD_char tokens refs (k - 1) (by omega)
    rw [hq2l] at hcharPrev
    have hprev : (labelTags tokens refs).getD (k - 1) "O" =
        if q2.1 = k - 1 then "B" else "I" := hcharPrev
    by_cases he2 : q2.1 = k - 1
    · rw [if_pos he2] at hprev
      exact Or.inl hprev
    · rw [if_neg he2] at hprev
      exact Or.inr hprev

/-- Witness for C8 at a concrete sentence: in `labelTags ["a", "b"] ["ab"]`
position 1 is tagged "I", so it is positive and its predecessor holds "B" or
"I". -/
theorem no_leading_or_orphan_I_witness :
    0 < 1 ∧ ((labelTags ["a", "b"] ["ab"]).getD (1 - 1) "O" = "B" ∨
      (labelTags ["a", "b"] ["ab"]).getD (1 - 1) "O" = "I") :=
  no_leading_or_orphan_I ["a", "b"] ["ab"] 1 (by decide) (by decide)

/-! ### Span concatenations and the reference list (claim C3) -/

/-- C3 counterexample: with tokens `a`, `b`, `c` and references `abc` and
`bc`, the loop first stamps `B I I` for `abc` and then overwrites positions 1
and 2 for `bc`, leaving `B B I`; the maximal span consisting of the lone "B"
at position 0 concatenates to `"a"`, which is in no reference. -/
theorem maxSpan_concat_counterexample :
    labelTags ["a", "b", "c"] ["abc", "bc"] = ["B", "B", "I"] ∧
    isMaxBISpan (labelTags ["a", "b", "c"] ["abc", "bc"]) 0 1 = true ∧
    concatSlice ["a", "b", "c"] 0 1 ∉ (["abc", "bc"] : List String) := by
  decide

theorem matchedSpan_iff (tokens refs : List String) (i j : Nat) :
    matchedSpan tokens refs i j = true ↔
      i < j ∧ j ≤ tokens.length ∧ concatSlice tokens i j ∈ refs := by
  unfold matchedSpan
  simp [and_assoc]

theorem noOverlap_spec (tokens refs : List String)
    (h : noOverlap tokens refs = true) :
    ∀ i j a b, matchedSpan tokens refs i j = true →
      matchedSpan tokens refs a b = true →
      (i = a ∧ j = b) ∨ j ≤ a ∨ b ≤ i := by
  intro i j a b h1 h2
  unfold noOverlap at h
  simp only [List.all_eq_true] at h
  obtain ⟨hij1, hij2, -⟩ := (matchedSpan_iff tokens refs i j).mp h1
  obtain ⟨hab1, hab2, -⟩ := (matchedSpan_iff tokens refs a b).mp h2
  have := h i (by rw [List.mem_range]; omega) j (by rw [List.mem_range]; omega)
    a (by rw [List.mem_range]; omega) b (by rw [List.mem_range]; omega)
  rw [h1, h2] at this
  simpa using this

theorem isMaxBISpan_spec (tags : List String) (i j : Nat)
    (h : isMaxBISpan tags i j = true) :
    i < j ∧ j ≤ tags.length ∧ tags.getD i "O" = "B" ∧
      (∀ k, i < k → k < j → tags.getD k "O" = "I") ∧
      tags.getD j "X" ≠ "I" := by
  unfold isMaxBISpan at h
  simp only [Bool.and_eq_true, decide_eq_true_eq, List.all_eq_true,
    beq_iff_eq, bne_iff_ne] at h
  obtain ⟨⟨⟨⟨h1, h2⟩, h3⟩, h4⟩, h5⟩ := h
  refine ⟨h1, h2, h3, ?_, h5⟩
  intro k hik hkj
  exact h4 k (by rw [List.mem_range'_1]; omega)

/-- C3 amended: provided no two matched spans overlap (every pair of spans
whose concatenation is in the reference list is equal or disjoint), the
separator-free concatenation of every maximal B-I* span of the produced tags
equals some entry of the parsed reference list. Without that proviso the
claim fails, see the counterexample. -/
theorem maxSpan_concat_mem_refs (tokens refs : List String)
    (hno : noOverlap tokens refs = true) (i j : Nat)
    (hspan : isMaxBISpan (labelTags tokens refs) i j = true) :
    concatSlice tokens i j ∈ refs := by
  obtain ⟨hij, hjlen, hB, hI, hend⟩ := isMaxBISpan_spec _ _ _ hspan
  rw [labelTags_length] at hjlen
  have hn := labelTags_length tokens refs
  have hi_lt : i < tokens.length := by omega
  have hchar := labelTags_getD_char tokens refs i hi_lt
  rw [hB] at hchar
  cases hl : lastCover i (spanList tokens refs) with
  | none =>
    rw [hl] at hchar
    have hbad : ("B" : String) = "O" := hchar
    exact absurd hbad (by decide)
  | some q =>
    rw [hl] at hchar
    have hchar2 : ("B" : String) = if q.1 = i then "B" else "I" := hchar
    obtain ⟨hqmem, hqc1, hqc2⟩ := lastCover_mem i (spanList tokens refs) q hl
    have hq1 : q.1 = i := by
      by_contra hne
      rw [if_neg hne] at hchar2
      exact absurd hchar2 (by decide)
    obtain ⟨hq12, hq2n, hqconcat⟩ := (mem_spanList tokens refs q).mp hqmem
    have hqmatch : matchedSpan tokens refs q.1 q.2 = true :=
      (matchedSpan_iff tokens refs q.1 q.2).mpr ⟨hq12, hq2n, hqconcat⟩
    have huniq : ∀ k, i ≤ k → k < q.2 →
        ∀ r, lastCover k (spanList tokens refs) = some r → r = q := by
      intro k hk1 hk2 r hr
      obtain ⟨hrmem, hrc1, hrc2⟩ := lastCover_mem k (spanList tokens refs) r hr
      have hrmatch : matchedSpan tokens refs r.1 r.2 = true :=
        (matchedSpan_iff tokens refs r.1 r.2).mpr
          ((mem_spanList tokens refs r).mp hrmem)
      rcases noOverlap_spec tokens refs hno r.1 r.2 q.1 q.2 hrmatch hqmatch with
        ⟨e1, e2⟩ | h2 | h2
      · rcases r with ⟨r1, r2⟩
        rcases q with ⟨q1, q2⟩
        simp only at e1 e2
        rw [e1, e2]
      · omega
      · omega
    have hinterior : ∀ k, i < k → k < q.2 →
        (labelTags tokens refs).getD k "O" = "I" := by
      intro k hk1 hk2
      have hkn : k < tokens.length := by omega
      have hcharK := labelTags_getD_char tokens refs k hkn
      have hsome := lastCover_isSome k (spanList tokens refs) q hqmem
        (by omega) (by omega)
      rcases Option.isSome_iff_exists.mp hsome with ⟨r, hr⟩
      have hrq := huniq k (by omega) hk2 r hr
      rw [hr] at hcharK
      have hcharK2 : (labelTags tokens refs).getD k "O" =
          if r.1 = k then "B" else "I" := hcharK
      rw [hcharK2, hrq, if_neg (by omega : ¬ q.1 = k)]
    have hat_end : q.2 < tokens.length →
        (labelTags tokens refs).getD q.2 "O" ≠ "I" := by
      intro hbn hbad
      have hcharB := labelTags_getD_char tokens refs q.2 hbn
      rw [hbad] at hcharB
      cases hl3 : lastCover q.2 (spanList tokens refs) with
      | none =>
        rw [hl3] at hcharB
        have hbad2 : ("I" : String) = "O" := hcharB
        exact absurd hbad2 (by decide)
      | some r =>
        rw [hl3] at hcharB
        have hcharB2 : ("I" : String) = if r.1 = q.2 then "B" else "I" := hcharB
        obtain ⟨hrmem, hrc1, hrc2⟩ := lastCover_mem q.2 (spanList tokens refs) r hl3
        have hrne : r.1 ≠ q.2 := by
          intro he
          rw [if_pos he] at hcharB2
          exact absurd hcharB2 (by decide)
        have hrmatch : matchedSpan tokens refs r.1 r.2 = true :=
          (matchedSpan_iff tokens refs r.1 r.2).mpr
            ((mem_spanList tokens refs r).mp hrmem)
        rcases noOverlap_spec tokens refs hno r.1 r.2 q.1 q.2 hrmatch hqmatch
          with ⟨e1, e2⟩ | h2 | h2
        · omega
        · omega
        · omega
    have hjb : j = q.2 := by
      rcases Nat.lt_trichotomy j q.2 with hlt | heq | hgt
      · have hIj : (labelTags tokens refs).getD j "O" = "I" :=
          hinterior j hij hlt
        have hjn2 : j < tokens.length := by omega
        have e1 : (labelTags tokens refs).getD j "O" =
            (labelTags tokens refs).getD j "X" := by
          rw [List.getD_eq_getElem _ _ (by omega),
            List.getD_eq_getElem _ _ (by omega)]
        exact absurd (e1 ▸ hIj) hend
      · exact heq
      · have hbn : q.2 < tokens.length := by omega
        exact absurd (hI q.2 (by omega) (by omega)) (hat_end hbn)
    rw [hjb, ← hq1]
    exact hqconcat

/-- Witness for the amended C3: tokens `x`, `y` with the single reference
`xy` have exactly one matched span, so overlap is absent and the maximal
B-I* span concatenates to a reference entry. -/
theorem maxSpan_concat_mem_refs_witness :
    concatSlice ["x", "y"] 0 2 ∈ (["xy"] : List String) :=
  maxSpan_concat_mem_refs ["x", "y"] ["xy"] (by decide) 0 2 (by decide)

/-! ### Determinism and absence of cross-record interference (claim C9) -/

theorem inner_yield_eq (refs : List String) :
    ∀ (sents : List (List String)) (acc : List (List String × List String)),
      sents.foldl
        (fun acc2 tokens => acc2 ++ [(tokens, labelTags tokens refs)]) acc =
      acc ++ sents.map fun tokens => (tokens, labelTags tokens refs) := by
  intro sents
  induction sents with
  | nil => intro acc; simp
  | cons s sents ih =>
    intro acc
    rw [List.foldl_cons, ih]
    simp

theorem readInstances_foldl_eq :
    ∀ (records : List (String × List (List String)))
      (acc : List (List String × List String)),
      records.foldl
        (fun acc r =>
          (r.2).foldl
            (fun acc2 tokens =>
              acc2 ++ [(tokens, labelTags tokens (parseRefs r.1))])
            acc)
        acc =
      acc ++ (records.map fun r =>
        r.2.map fun tokens =>
          (tokens, labelTags tokens (parseRefs r.1))).flatten := by
  intro records
  induction records with
  | nil => intro acc; simp
  | cons r records ih =>
    intro acc
    rw [List.foldl_cons, ih, inner_yield_eq]
    simp

/-- C9: the instance stream is a pure, pointwise function of each record: the
tags of every sentence depend only on that sentence's token texts and its own
record's parsed reference list, so equal (tokens, reference-cell) pairs get
identical tag sequences wherever and whenever they are processed, and no
record's processing affects another's output. -/
theorem read_deterministic_no_interference :
    (∀ records : List (String × List (List String)),
      readInstances records =
        (records.map fun r =>
          r.2.map fun tokens =>
            (tokens, labelTags tokens (parseRefs r.1))).flatten) ∧
    (∀ (records : List (String × List (List String)))
        (r : String × List (List String)) (tokens : List String),
      r ∈ records → tokens ∈ r.2 →
        (tokens, labelTags tokens (parseRefs r.1)) ∈ readInstances records) := by
  constructor
  · intro records
    unfold readInstances
    rw [readInstances_foldl_eq]
    rfl
  · intro records r tokens hr htok
    unfold readInstances
    rw [readInstances_foldl_eq]
    rw [List.nil_append]
    rw [List.mem_flatten]
    exact ⟨r.2.map fun tokens =>
        (tokens, labelTags tokens (parseRefs r.1)),
      List.mem_map.mpr ⟨r, hr, rfl⟩,
      List.mem_map.mpr ⟨tokens, htok, rfl⟩⟩

/-- Witness for C9 at a concrete one-record stream. -/
theorem read_deterministic_no_interference_witness :
    (["t"], labelTags ["t"] (parseRefs "t")) ∈
      readInstances [("t", [["t"]])] :=
  read_deterministic_no_interference.2 [("t", [["t"]])] ("t", [["t"]]) ["t"]
    (by decide) (by decide)

/-! ### BIOUL round trip (claim C10) -/

theorem flushStack_congr (s1 s2 : List String) (h : s1.length = s2.length) :
    flushStack s1 = flushStack s2 := by
  rcases s1 with _ | ⟨a1, s1⟩ <;> rcases s2 with _ | ⟨a2, s2⟩
  · rfl
  · simp at h
  · simp at h
  · rcases s1 with _ | ⟨b1, t1⟩ <;> rcases s2 with _ | ⟨b2, t2⟩
    · rfl
    · simp at h
    · simp at h
    · rw [flushStack_cons_cons, flushStack_cons_cons]
      simp only [List.length_cons] at h ⊢
      rw [(by omega : t1.length + 1 + 1 - 2 = t2.length + 1 + 1 - 2)]

theorem toBioulGo_congr (tags : List String) : ∀ s1 s2 : List String,
    s1.length = s2.length → toBioulGo s1 tags = toBioulGo s2 tags := by
  induction tags with
  | nil =>
    intro s1 s2 h
    simp only [toBioulGo]
    rw [flushStack_congr s1 s2 h]
  | cons t rest ih =>
    intro s1 s2 h
    simp only [toBioulGo]
    by_cases hO : t = "O"
    · rw [if_pos hO, if_pos hO, flushStack_congr s1 s2 h]
    · by_cases hI : t = "I"
      · rw [if_neg hO, if_neg hO, if_pos hI, if_pos hI]
        exact ih (s1 ++ ["I"]) (s2 ++ ["I"]) (by simp [h])
      · by_cases hB : t = "B"
        · rw [if_neg hO, if_neg hO, if_neg hI, if_neg hI, if_pos hB, if_pos hB,
            flushStack_congr s1 s2 h]
        · rw [if_neg hO, if_neg hO, if_neg hI, if_neg hI, if_neg hB, if_neg hB]

theorem fromBioulGo_Irun (rest : List String) : ∀ m : Nat,
    fromBioulGo true (List.replicate m "I" ++ "L" :: rest) =
      List.replicate (m + 1) "I" ++ fromBioulGo true rest := by
  intro m
  induction m with
  | zero =>
    show fromBioulGo true ("L" :: rest) = "I" :: fromBioulGo true rest
    simp only [fromBioulGo]
    rw [if_neg (by decide), if_neg (by simp)]
  | succ m ih =>
    rw [List.replicate_succ, List.cons_append]
    show fromBioulGo true ("I" :: (List.replicate m "I" ++ "L" :: rest)) =
      List.replicate (m + 1 + 1) "I" ++ fromBioulGo true rest
    simp only [fromBioulGo]
    rw [if_neg (by decide), if_neg (by simp), ih,
      List.replicate_succ ("I" : String) (m + 1)]
    rfl

theorem fromBioulGo_flush (k : Nat) (p : Bool) (rest : List String) :
    fromBioulGo p (flushStack (List.replicate (k + 1) "I") ++ rest) =
      (if p then "B" else "I") :: (List.replicate k "I" ++
        fromBioulGo true rest) := by
  cases k with
  | zero =>
    show fromBioulGo p ("U" :: rest) =
      (if p then "B" else "I") :: fromBioulGo true rest
    simp only [fromBioulGo]
    rw [if_neg (by decide), if_pos (by simp)]
  | succ k =>
    have hf : flushStack (List.replicate (k + 2) "I") =
        "B" :: List.replicate k "I" ++ ["L"] := by
      rw [List.replicate_succ, List.replicate_succ, flushStack_cons_cons]
      simp
    rw [hf]
    have hshape : ("B" :: List.replicate k "I" ++ ["L"]) ++ rest =
        "B" :: (List.replicate k "I" ++ "L" :: rest) := by
      simp
    rw [hshape]
    show (if p then "B" else "I") ::
        fromBioulGo true (List.replicate k "I" ++ "L" :: rest) =
      (if p then "B" else "I") :: (List.replicate (k + 1) "I" ++
        fromBioulGo true rest)
    rw [fromBioulGo_Irun]

theorem toBioul_roundtrip_main (n : Nat) : ∀ tags : List String,
    tags.length ≤ n →
    (wfFrom false tags = true →
      ∃ out, toBioulGo [] tags = some out ∧ fromBioulGo false out = tags) ∧
    (∀ (k : Nat) (p : Bool), wfFrom true tags = true →
      ∃ out, toBioulGo (List.replicate (k + 1) "I") tags = some out ∧
        fromBioulGo p out =
          (if p then "B" else "I") :: (List.replicate k "I" ++ tags)) := by
  induction n with
  | zero =>
    intro tags hlen
    have htags : tags = [] := List.eq_nil_of_length_eq_zero (by omega)
    subst htags
    constructor
    · intro _
      exact ⟨[], rfl, rfl⟩
    · intro k p _
      refine ⟨flushStack (List.replicate (k + 1) "I"), rfl, ?_⟩
      have h := fromBioulGo_flush k p []
      rw [List.append_nil] at h
      rw [h]
      rfl
  | succ n ihn =>
    intro tags hlen
    constructor
    · intro hwf
      cases tags with
      | nil => exact ⟨[], rfl, rfl⟩
      | cons t rest =>
        have hlen2 : rest.length ≤ n := by
          simp only [List.length_cons] at hlen
          omega
        simp only [wfFrom] at hwf
        by_cases hO : t = "O"
        · rw [if_pos hO] at hwf
          obtain ⟨out, hout, hrec⟩ := (ihn rest hlen2).1 hwf
          subst hO
          refine ⟨"O" :: out, ?_, ?_⟩
          · simp only [toBioulGo, if_true]
            rw [hout]
            rfl
          · simp only [fromBioulGo, if_true]
            rw [hrec]
        · by_cases hI : t = "I"
          · rw [if_neg hO, if_pos hI] at hwf
            obtain ⟨out, hout, hrec⟩ := (ihn rest hlen2).2 0 false hwf
            subst hI
            refine ⟨out, ?_, ?_⟩
            · simp only [toBioulGo, if_true]
              exact hout
            · rw [hrec]
              rfl
          · by_cases hB : t = "B"
            · rw [if_neg hO, if_neg hI, if_pos hB] at hwf
              simp at hwf
            · rw [if_neg hO, if_neg hI, if_neg hB] at hwf
              simp at hwf
    · intro k p hwf
      cases tags with
      | nil =>
        refine ⟨flushStack (List.replicate (k + 1) "I"), rfl, ?_⟩
        have h := fromBioulGo_flush k p []
        rw [List.append_nil] at h
        rw [h]
        rfl
      | cons t rest =>
        have hlen2 : rest.length ≤ n := by
          simp only [List.length_cons] at hlen
          omega
        simp only [wfFrom] at hwf
        by_cases hO : t = "O"
        · rw [if_pos hO] at hwf
          obtain ⟨out, hout, hrec⟩ := (ihn rest hlen2).1 hwf
          subst hO
          refine ⟨flushStack (List.replicate (k + 1) "I") ++ "O" :: out, ?_, ?_⟩
          · simp only [toBioulGo, if_true]
            rw [hout]
            rfl
          · rw [fromBioulGo_flush k p ("O" :: out)]
            simp only [fromBioulGo, if_true]
            rw [hrec]
        · by_cases hI : t = "I"
          · rw [if_neg hO, if_pos hI] at hwf
            obtain ⟨out, hout, hrec⟩ := (ihn rest hlen2).2 (k + 1) p hwf
            subst hI
            refine ⟨out, ?_, ?_⟩
            · simp only [toBioulGo, if_true]
              rw [show List.replicate (k + 1) "I" ++ ["I"] =
                List.replicate (k + 1 + 1) "I" from (List.replicate_succ' _ _).symm]
              exact hout
            · rw [hrec]
              rw [List.replicate_succ' k ("I" : String)]
              simp
          · by_cases hB : t = "B"
            · rw [if_neg hO, if_neg hI, if_pos hB] at hwf
              rw [Bool.true_and] at hwf
              obtain ⟨out, hout, hrec⟩ := (ihn rest hlen2).2 0 true hwf
              subst hB
              refine ⟨flushStack (List.replicate (k + 1) "I") ++ out, ?_, ?_⟩
              · simp only [toBioulGo, if_true]
                rw [if_neg (by decide), if_neg (by decide)]
                rw [toBioulGo_congr rest ["B"] (List.replicate (0 + 1) "I")
                  (by simp), hout]
                rfl
              · rw [fromBioulGo_flush k p out, hrec]
                simp
            · rw [if_neg hO, if_neg hI, if_neg hB] at hwf
              simp at hwf

/-- C10: recoding a well-formed IOB1 tag sequence free of overlapping-span
artifacts to BIOUL and converting back is the identity, so span boundaries
are reconstructed exactly; under overlap the loop can emit sequences such as
`B B I` (a "B" opening a span directly after "O"-context) for which the round
trip is not the identity. -/
theorem bioul_roundtrip :
    (∀ tags : List String, wellFormedIOB1 tags = true →
      (to_bioul tags).isSome = true ∧
        from_bioul ((to_bioul tags).getD []) = tags) ∧
    to_bioul ["B", "B", "I"] = some ["U", "B", "L"] ∧
    from_bioul ["U", "B", "L"] ≠ ["B", "B", "I"] := by
  refine ⟨fun tags hwf => ?_, by decide, by decide⟩
  obtain ⟨out, hout, hrec⟩ :=
    (toBioul_roundtrip_main tags.length tags le_rfl).1 hwf
  constructor
  · unfold to_bioul
    rw [hout]
    rfl
  · unfold to_bioul from_bioul
    rw [hout]
    exact hrec

/-- Witness for C10 on a concrete well-formed sequence with two adjacent
spans. -/
theorem bioul_roundtrip_witness :
    (to_bioul ["O", "I", "I", "B", "I"]).isSome = true ∧
    from_bioul ((to_bioul ["O", "I", "I", "B", "I"]).getD []) =
      ["O", "I", "I", "B", "I"] :=
  bioul_roundtrip.1 ["O", "I", "I", "B", "I"] (by decide)

end Parsli
